import Mathlib

/-!
Verification of the ROOMii emotion pipeline against its specification.

The definitions below are shallow embeddings of the Python source:
  * `backend/voice_tone_analyzer.py` : `combine_emotions`
  * `backend/mood_manager.py`        : `combine_moods`
  * `backend/emotion_detector.py`    : `detect_emotion_sync` (bias
    correction, smoothing window, cache)
  * `backend/emotion_calibration.py` : `cosine_similarity`, `match_emotion`

Confidences and timestamps are modelled as rationals, embedding vectors as
lists of reals (the norm needs a square root).  External effects (camera
capture, the DeepFace classifier, the database) are modelled as explicit
inputs, and the side effects of a call (cache state, whether a capture was
performed) are returned explicitly.
-/

namespace Roomii

/-- Mean of a list of rationals, `sum(xs) / len(xs)` as in the Python code.
Division by zero follows Lean's convention (`[] ↦ 0`); the code never takes
the mean of an empty list. -/
def meanQ (l : List ℚ) : ℚ := l.sum / (l.length : ℚ)

/-! ### `combine_emotions` (voice_tone_analyzer.py, lines 83-115) -/

/-- Embedding of `combine_emotions`: weights are `face 0.6 / voice 0.4`,
signals with confidence `< 0.4` are discarded, agreement gets a `×1.2`
boost clamped at `1`, disagreement is decided by the weighted values. -/
def combine_emotions (face_emotion : String) (face_conf : ℚ)
    (voice_emotion : String) (voice_conf : ℚ) : String × ℚ :=
  if face_conf < 2/5 then (voice_emotion, voice_conf)
  else if voice_conf < 2/5 then (face_emotion, face_conf)
  else if face_emotion = voice_emotion then
    (face_emotion, min ((face_conf * (3/5) + voice_conf * (2/5)) * (6/5)) 1)
  else if face_conf * (3/5) < voice_conf * (2/5) then
    (voice_emotion, voice_conf * (2/5))
  else
    (face_emotion, face_conf * (3/5))

/-! ### `combine_moods` (mood_manager.py, lines 11-23) -/

/-- Embedding of `combine_moods`: negative face labels or negative voice
sentiment give `low`, else positive ones give `cheerful`, else `neutral`. -/
def combine_moods (face_emotion voice_sentiment : String) : String :=
  if face_emotion ∈ ["angry", "sad", "fear"] ∨ voice_sentiment ∈ ["negative", "sad"] then
    "low"
  else if face_emotion ∈ ["happy", "surprise"] ∨ voice_sentiment ∈ ["positive", "joy"] then
    "cheerful"
  else
    "neutral"

/-- The mood-reduction rule exactly as the spec words it (priority order,
first match wins), written separately so the code can be compared to it. -/
def combineMoodsSpec (face_emotion voice_sentiment : String) : String :=
  if face_emotion ∈ ["angry", "sad", "fear"] ∨ voice_sentiment ∈ ["negative", "sad"] then
    "low"
  else if face_emotion ∈ ["happy", "surprise"] ∨ voice_sentiment ∈ ["positive", "joy"] then
    "cheerful"
  else
    "neutral"

/-! ### Bias correction (emotion_detector.py, lines 88-101) -/

/-- Embedding of the bias-correction block of `detect_emotion_sync`:
for a raw `fear`/`sad` label with confidence `< 0.80`, the label is
switched to `neutral` (checked first) or `happy` when that alternative's
score exceeds `confidence - 0.15`, taking the alternative's score as the
new confidence.  `neutral_score` and `happy_score` are the classifier's
`all_emotions` entries, already normalised to `[0, 1]`. -/
def biasCorrect (emotion : String) (confidence neutral_score happy_score : ℚ) :
    String × ℚ :=
  if emotion ∈ ["fear", "sad"] ∧ confidence < 4/5 then
    if confidence - 3/20 < neutral_score then ("neutral", neutral_score)
    else if confidence - 3/20 < happy_score then ("happy", happy_score)
    else (emotion, confidence)
  else (emotion, confidence)

/-! ### Claims C4, C5, C6, C10, C7, C2 -/

/-- Claim C4: a weak signal (confidence `< 0.4`) is discarded outright.
If the face confidence is below `0.4` the voice signal is returned exactly
as given; if the voice confidence is below `0.4` while the face signal is
not weak, the face signal is returned exactly as given.  (The case where
both are weak is claim C10.) -/
theorem C4_weak_signal (fe : String) (fc : ℚ) (ve : String) (vc : ℚ) :
    (fc < 2/5 → combine_emotions fe fc ve vc = (ve, vc)) ∧
    (2/5 ≤ fc → vc < 2/5 → combine_emotions fe fc ve vc = (fe, fc)) := by
  constructor
  · intro h
    simp [combine_emotions, h]
  · intro hf hv
    simp [combine_emotions, not_lt.mpr hf, hv]

/-- Claim C4, witness: the spec's own example, face `(sad, 0.3)` and voice
`(happy, 0.9)` fuse to the voice signal `(happy, 0.9)` unchanged. -/
theorem C4_weak_signal_witness :
    combine_emotions "sad" (3/10) "happy" (9/10) = ("happy", 9/10) :=
  (C4_weak_signal "sad" (3/10) "happy" (9/10)).1 (by norm_num)

/-- Claim C10: when both the face and the voice confidence are below `0.4`,
`combine_emotions` returns the voice signal unchanged, because the face-weak
branch is tested first. -/
theorem C10_both_weak (fe : String) (fc : ℚ) (ve : String) (vc : ℚ)
    (hf : fc < 2/5) (_hv : vc < 2/5) :
    combine_emotions fe fc ve vc = (ve, vc) := by
  simp [combine_emotions, hf]

/-- Claim C10, witness: face `(sad, 0.25)` and voice `(happy, 0.25)`,
both weak, fuse to the voice signal `(happy, 0.25)`. -/
theorem C10_both_weak_witness :
    combine_emotions "sad" (1/4) "happy" (1/4) = ("happy", 1/4) :=
  C10_both_weak "sad" (1/4) "happy" (1/4) (by norm_num) (by norm_num)

/-- Claim C5: when both confidences are at least `0.4` and the labels agree,
the fused result is that label with confidence
`min 1 ((faceConf*0.6 + voiceConf*0.4) * 1.2)`. -/
theorem C5_agreement_boost (fe : String) (fc : ℚ) (ve : String) (vc : ℚ)
    (hf : 2/5 ≤ fc) (hv : 2/5 ≤ vc) (heq : fe = ve) :
    combine_emotions fe fc ve vc =
      (fe, min ((fc * (3/5) + vc * (2/5)) * (6/5)) 1) := by
  simp [combine_emotions, not_lt.mpr hf, not_lt.mpr hv, heq]

/-- Claim C5, witness: the spec's example, face `(happy, 0.8)` and voice
`(happy, 0.8)` fuse to `(happy, 0.96)`. -/
theorem C5_agreement_boost_witness :
    combine_emotions "happy" (4/5) "happy" (4/5) = ("happy", 24/25) := by
  have h := C5_agreement_boost "happy" (4/5) "happy" (4/5)
    (by norm_num) (by norm_num) rfl
  rw [h]
  norm_num

/-- Claim C6: when both confidences are at least `0.4` and the labels
differ, the signal with the larger weighted value (`faceConf*0.6` versus
`voiceConf*0.4`) wins and its weighted value is returned as the
confidence; an exact tie of the weighted values goes to the face signal. -/
theorem C6_disagreement (fe : String) (fc : ℚ) (ve : String) (vc : ℚ)
    (hf : 2/5 ≤ fc) (hv : 2/5 ≤ vc) (hne : fe ≠ ve) :
    (fc * (3/5) < vc * (2/5) →
      combine_emotions fe fc ve vc = (ve, vc * (2/5))) ∧
    (vc * (2/5) < fc * (3/5) →
      combine_emotions fe fc ve vc = (fe, fc * (3/5))) ∧
    (fc * (3/5) = vc * (2/5) →
      combine_emotions fe fc ve vc = (fe, fc * (3/5))) := by
  refine ⟨fun h => ?_, fun h => ?_, fun h => ?_⟩
  · simp [combine_emotions, not_lt.mpr hf, not_lt.mpr hv, hne, h]
  · simp [combine_emotions, not_lt.mpr hf, not_lt.mpr hv, hne, not_lt.mpr h.le]
  · simp [combine_emotions, not_lt.mpr hf, not_lt.mpr hv, hne, not_lt.mpr h.ge]

/-- Claim C6, witness: face `(sad, 0.5)` versus voice `(happy, 0.9)`:
the voice weighted value `0.36` beats the face weighted value `0.30`, so
the result is `(happy, 0.36)` — the winner's weighted value, not its raw
confidence. -/
theorem C6_disagreement_witness :
    combine_emotions "sad" (1/2) "happy" (9/10) = ("happy", 9/25) := by
  have h := (C6_disagreement "sad" (1/2) "happy" (9/10)
    (by norm_num) (by norm_num) (by decide)).1 (by norm_num)
  rw [h]
  norm_num

/-- Claim C7: `combine_moods` agrees everywhere with the spec's priority
rule (negative face label or negative voice sentiment give `low`, else
positive ones give `cheerful`, else `neutral`), and in particular
face `angry` with voice `neutral` yields `low`. -/
theorem C7_mood_priority :
    (∀ f v, combine_moods f v = combineMoodsSpec f v) ∧
    combine_moods "angry" "neutral" = "low" :=
  ⟨fun _ _ => rfl, by decide⟩

/-- Claim C2: for a raw `fear`/`sad` label with confidence below `0.80`,
if the neutral score exceeds `confidence - 0.15` the result is
`(neutral, neutral_score)`; otherwise, if the happy score exceeds
`confidence - 0.15`, the result is `(happy, happy_score)` — in each case
the alternative's own score becomes the new confidence. -/
theorem C2_bias_correction (emo : String) (conf nS hS : ℚ)
    (hemo : emo ∈ ["fear", "sad"]) (hconf : conf < 4/5) :
    (conf - 3/20 < nS → biasCorrect emo conf nS hS = ("neutral", nS)) ∧
    (¬ conf - 3/20 < nS → conf - 3/20 < hS →
      biasCorrect emo conf nS hS = ("happy", hS)) := by
  constructor
  · intro h
    simp [biasCorrect, hemo, hconf, h]
  · intro hn hh
    simp [biasCorrect, hemo, hconf, hn, hh]

/-- Claim C2, witness: raw label `fear` at confidence `0.75` with neutral
score `0.65` is overridden to `(neutral, 0.65)`, since `0.65 > 0.60`. -/
theorem C2_bias_correction_witness :
    biasCorrect "fear" (3/4) (13/20) (1/10) = ("neutral", 13/20) :=
  (C2_bias_correction "fear" (3/4) (13/20) (1/10)
    (by decide) (by norm_num)).1 (by norm_num)

/-! ### Smoothing window (emotion_detector.py, lines 14 and 109-121) -/

/-- One sample of the smoothing window: `(label, confidence)`. -/
abbrev Sample := String × ℚ

/-- Append to a `deque(maxlen=cap)`: the sample goes on the right and the
oldest element is evicted from the left once the capacity is exceeded. -/
def pushWindow (cap : Nat) (w : List Sample) (s : Sample) : List Sample :=
  let w' := w ++ [s]
  if cap < w'.length then w'.drop (w'.length - cap) else w'

/-- The state of the smoothing window after appending a whole sequence of
samples to an initially empty `deque(maxlen=8)`. -/
def windowAfter (samples : List Sample) : List Sample :=
  samples.foldl (pushWindow 8) []

/-- One step of building the `emotion_scores` dict: a missing label is
inserted at the end (Python dicts preserve insertion order), an existing
label has the confidence appended to its list. -/
def addToScores (scores : List (String × List ℚ)) (emo : String) (conf : ℚ) :
    List (String × List ℚ) :=
  if scores.any (fun p => p.1 == emo) then
    scores.map (fun p => if p.1 == emo then (p.1, p.2 ++ [conf]) else p)
  else scores ++ [(emo, [conf])]

/-- The `emotion_scores` dict of `detect_emotion_sync`, grouping the
confidences of the window by label in first-seen order. -/
def emotionScores (w : List Sample) : List (String × List ℚ) :=
  w.foldl (fun s p => addToScores s p.1 p.2) []

/-- Python's `max(..., key=f)` over a non-empty list `x :: xs`: the running
best is replaced only on a strictly larger key, so the first maximal
element wins. -/
def pyMaxBy (f : α → ℚ) : α → List α → α
  | x, [] => x
  | x, y :: ys => pyMaxBy f (if f x < f y then y else x) ys

/-- Lines 113-126 of `detect_emotion_sync`: the label with the highest
average confidence in the window is the stable one, and it is replaced by
`neutral` when that average is below the threshold `T`.  The `[]` case is
unreachable (the window is never empty there). -/
def stableFromWindow (T : ℚ) (w : List Sample) : String × ℚ :=
  match emotionScores w with
  | [] => ("neutral", 0)
  | s :: rest =>
    let best := pyMaxBy (fun p => meanQ p.2) s rest
    let avg := meanQ best.2
    if avg < T then ("neutral", avg) else (best.1, avg)

/-! ### `detect_emotion_sync` with cache (emotion_detector.py, lines 26-136) -/

/-- The process-wide `_emotion_cache` slot. -/
structure CacheEntry where
  emotion : String
  confidence : ℚ
  timestamp : ℚ
deriving DecidableEq

/-- The mutable state touched by `detect_emotion_sync`: the cache slot and
the smoothing window. -/
structure DetectorState where
  cache : CacheEntry
  window : List Sample
deriving DecidableEq

/-- What the external world would answer during one call: whether the
camera read succeeds (`ret`), whether `DeepFace.analyze` succeeds, and the
classifier's dominant label and (normalised) scores.  The calibration path
is absent because the claims concern calls without a `user_id`. -/
structure CaptureEnv where
  ret : Bool
  classifyOk : Bool
  dominant : String
  domScore : ℚ
  neutralScore : ℚ
  happyScore : ℚ
deriving DecidableEq

/-- Which external operations one call performed. -/
structure CallTrace where
  captured : Bool
  classified : Bool
deriving DecidableEq

/-- Embedding of `detect_emotion_sync` (no `user_id`): a cache hit within
`ttl` returns the cached pair without touching the camera; otherwise a
frame is captured and classified, bias correction is applied, the sample
is pushed into the window, the smoothed result is computed and the cache
is overwritten with timestamp `now`.  Capture or classifier failure
returns `(neutral, 0)` and leaves the state unchanged. -/
def detectEmotionSync (T ttl : ℚ) (env : CaptureEnv) (now : ℚ)
    (bypass_cache : Bool) (st : DetectorState) :
    (String × ℚ) × DetectorState × CallTrace :=
  if bypass_cache = false ∧ now - st.cache.timestamp < ttl then
    ((st.cache.emotion, st.cache.confidence), st, ⟨false, false⟩)
  else if env.ret = false then
    (("neutral", 0), st, ⟨true, false⟩)
  else if env.classifyOk = false then
    (("neutral", 0), st, ⟨true, true⟩)
  else
    let ec := biasCorrect env.dominant env.domScore env.neutralScore env.happyScore
    let w := pushWindow 8 st.window ec
    let sa := stableFromWindow T w
    (sa, ⟨⟨sa.1, sa.2, now⟩, w⟩, ⟨true, true⟩)

/-- Claim C3: if a first `sample()` call with `bypass_cache = false` misses
the cache and succeeds (capture and classification both work), it writes
the cache; a second call with `bypass_cache = false` within `ttl` of that
written timestamp returns exactly the first call's `(label, confidence)` —
which is the cached pair — performs no capture and no classification, and
leaves the state (cache entry included) unchanged. -/
theorem C3_cache_ttl (T ttl : ℚ) (env₁ env₂ : CaptureEnv) (now₁ now₂ : ℚ)
    (st₀ : DetectorState)
    (hret : env₁.ret = true) (hcls : env₁.classifyOk = true)
    (hmiss : ¬ now₁ - st₀.cache.timestamp < ttl)
    (httl : now₂ - now₁ < ttl) :
    (detectEmotionSync T ttl env₁ now₁ false st₀).2.1.cache.timestamp = now₁ ∧
    detectEmotionSync T ttl env₂ now₂ false
        (detectEmotionSync T ttl env₁ now₁ false st₀).2.1 =
      ((detectEmotionSync T ttl env₁ now₁ false st₀).1,
       (detectEmotionSync T ttl env₁ now₁ false st₀).2.1,
       ⟨false, false⟩) ∧
    (detectEmotionSync T ttl env₁ now₁ false st₀).1 =
      ((detectEmotionSync T ttl env₁ now₁ false st₀).2.1.cache.emotion,
       (detectEmotionSync T ttl env₁ now₁ false st₀).2.1.cache.confidence) := by
  have h₁ : detectEmotionSync T ttl env₁ now₁ false st₀ =
      (((stableFromWindow T (pushWindow 8 st₀.window
          (biasCorrect env₁.dominant env₁.domScore env₁.neutralScore env₁.happyScore))).1,
        (stableFromWindow T (pushWindow 8 st₀.window
          (biasCorrect env₁.dominant env₁.domScore env₁.neutralScore env₁.happyScore))).2),
       ⟨⟨(stableFromWindow T (pushWindow 8 st₀.window
          (biasCorrect env₁.dominant env₁.domScore env₁.neutralScore env₁.happyScore))).1,
         (stableFromWindow T (pushWindow 8 st₀.window
          (biasCorrect env₁.dominant env₁.domScore env₁.neutralScore env₁.happyScore))).2,
         now₁⟩,
        pushWindow 8 st₀.window
          (biasCorrect env₁.dominant env₁.domScore env₁.neutralScore env₁.happyScore)⟩,
       ⟨true, true⟩) := by
    simp [detectEmotionSync, hmiss, hret, hcls]
  refine ⟨by rw [h₁], ?_, by rw [h₁]⟩
  rw [h₁]
  simp [detectEmotionSync, httl]

/-- Claim C3, witness: with threshold `0.7`, `ttl = 8`, a stale cache
(timestamp `0`) and a successful `happy`-at-`0.9` classification at time
`10`, the call at time `11` returns the cached `(happy, 0.9)` with no
capture and the state unchanged. -/
theorem C3_cache_ttl_witness :
    detectEmotionSync (7/10) 8 ⟨true, true, "sad", 1/2, 1/10, 1/10⟩ 11 false
        (detectEmotionSync (7/10) 8 ⟨true, true, "happy", 9/10, 1/10, 1/10⟩ 10 false
          ⟨⟨"neutral", 0, 0⟩, []⟩).2.1 =
      ((detectEmotionSync (7/10) 8 ⟨true, true, "happy", 9/10, 1/10, 1/10⟩ 10 false
          ⟨⟨"neutral", 0, 0⟩, []⟩).1,
       (detectEmotionSync (7/10) 8 ⟨true, true, "happy", 9/10, 1/10, 1/10⟩ 10 false
          ⟨⟨"neutral", 0, 0⟩, []⟩).2.1,
       ⟨false, false⟩) :=
  (C3_cache_ttl (7/10) 8 ⟨true, true, "happy", 9/10, 1/10, 1/10⟩
    ⟨true, true, "sad", 1/2, 1/10, 1/10⟩ 10 11 ⟨⟨"neutral", 0, 0⟩, []⟩
    rfl rfl (by norm_num) (by norm_num)).2.1

/-! ### `cosine_similarity` and `match_emotion` (emotion_calibration.py) -/

/-- `np.dot` on two vectors: the sum of the pointwise products. -/
def dotp (v w : List ℝ) : ℝ := (List.zipWith (fun a b => a * b) v w).sum

/-- `np.linalg.norm`: the square root of the sum of squares. -/
noncomputable def linalgNorm (v : List ℝ) : ℝ := Real.sqrt (dotp v v)

/-- Embedding of `cosine_similarity` (lines 112-116): the dot product
divided by the product of the norms, with no guard whatsoever against a
zero norm — exactly as written in the source. -/
noncomputable def cosine_similarity (v w : List ℝ) : ℝ :=
  dotp v w / (linalgNorm v * linalgNorm w)

/-- Mean of a list of reals, `np.mean`. -/
noncomputable def meanR (l : List ℝ) : ℝ := l.sum / (l.length : ℝ)

/-- The average cosine similarity of the current embedding to one
calibrated label's stored samples (`np.mean(similarities)`). -/
noncomputable def avgSim (current : List ℝ) (p : String × List (List ℝ)) : ℝ :=
  meanR (p.2.map (fun emb => cosine_similarity current emb))

/-- The loop body of `match_emotion`: the running `(best_match,
best_similarity)` pair starts at `(None, 0.0)` and is replaced only when a
label's average similarity is strictly larger. -/
noncomputable def matchStep (current : List ℝ) (acc : Option String × ℝ)
    (p : String × List (List ℝ)) : Option String × ℝ :=
  if acc.2 < avgSim current p then (some p.1, avgSim current p) else acc

/-- Embedding of `match_emotion` (lines 118-161) after the embedding of the
current frame has been extracted: the calibration data is the user's
label-to-samples map in insertion order; the best label by average cosine
similarity to its samples is returned only when that best similarity
exceeds `0.7`, else `None` is returned with the running best value. -/
noncomputable def match_emotion (current : List ℝ)
    (calibration_data : List (String × List (List ℝ))) : Option String × ℝ :=
  if calibration_data.isEmpty then (none, 0)
  else
    let best := calibration_data.foldl (matchStep current) (none, 0)
    if 7/10 < best.2 then best else (none, best.2)

/-- A list of nonnegative reals sums to zero exactly when every element is
zero. -/
theorem sum_eq_zero_iff_of_nonneg {l : List ℝ} (h : ∀ x ∈ l, 0 ≤ x) :
    l.sum = 0 ↔ ∀ x ∈ l, x = 0 := by
  induction l with
  | nil => simp
  | cons a l ih =>
    have ha : 0 ≤ a := h a (by simp)
    have hl : ∀ x ∈ l, 0 ≤ x := fun x hx => h x (by simp [hx])
    have hs : 0 ≤ l.sum := List.sum_nonneg hl
    simp only [List.sum_cons, List.mem_cons]
    rw [add_eq_zero_iff_of_nonneg ha hs, ih hl]
    constructor
    · rintro ⟨h1, h2⟩ x (rfl | hx)
      · exact h1
      · exact h2 x hx
    · intro hx
      exact ⟨hx a (Or.inl rfl), fun x hxl => hx x (Or.inr hxl)⟩

/-- `np.dot v v` is the sum of the squares of the entries of `v`. -/
theorem dotp_self_eq (v : List ℝ) : dotp v v = (v.map (fun x => x * x)).sum := by
  induction v with
  | nil => rfl
  | cons a v ih => simp only [dotp, List.zipWith_cons_cons, List.map_cons,
      List.sum_cons] at ih ⊢; rw [ih]

/-- `np.dot v v` is nonnegative. -/
theorem dotp_self_nonneg (v : List ℝ) : 0 ≤ dotp v v := by
  rw [dotp_self_eq]
  exact List.sum_nonneg (by
    intro x hx
    obtain ⟨y, _, rfl⟩ := List.mem_map.mp hx
    exact mul_self_nonneg y)

/-- The norm of a vector vanishes exactly when all its entries do. -/
theorem linalgNorm_eq_zero_iff (v : List ℝ) :
    linalgNorm v = 0 ↔ ∀ x ∈ v, x = 0 := by
  rw [linalgNorm, Real.sqrt_eq_zero (dotp_self_nonneg v), dotp_self_eq,
    sum_eq_zero_iff_of_nonneg (by
      intro x hx
      obtain ⟨y, _, rfl⟩ := List.mem_map.mp hx
      exact mul_self_nonneg y)]
  constructor
  · intro h x hx
    have := h (x * x) (List.mem_map.mpr ⟨x, hx, rfl⟩)
    exact mul_self_eq_zero.mp this
  · intro h x hx
    obtain ⟨y, hy, rfl⟩ := List.mem_map.mp hx
    rw [h y hy, mul_zero]

/-- Claim C8, counterexample: `cosine_similarity` is not guarded.  At the
concrete input `v1 = [0]`, `v2 = [1]` the divisor `‖v1‖ * ‖v2‖` it divides
by is zero: the code performs a division by a zero norm. -/
theorem C8_cosine_counterexample :
    linalgNorm [(0 : ℝ)] * linalgNorm [(1 : ℝ)] = 0 ∧
    cosine_similarity [(0 : ℝ)] [(1 : ℝ)] = dotp [(0 : ℝ)] [(1 : ℝ)] / 0 := by
  have h : linalgNorm [(0 : ℝ)] = 0 := by
    rw [linalgNorm_eq_zero_iff]
    simp
  refine ⟨by rw [h, zero_mul], ?_⟩
  rw [cosine_similarity, h, zero_mul]

/-- Claim C8, amended: `cosine_similarity` computes the dot product over
the product of the norms with no zero-vector guard; its divisor
`‖v1‖ * ‖v2‖` is zero exactly when one of the vectors is all zeros, and
whenever the divisor is nonzero the result times the divisor recovers the
dot product (i.e. for nonzero vectors it is the dot product divided by the
product of the norms). -/
theorem C8_cosine_unguarded (v w : List ℝ) :
    (linalgNorm v * linalgNorm w = 0 ↔
      (∀ x ∈ v, x = 0) ∨ (∀ x ∈ w, x = 0)) ∧
    (linalgNorm v * linalgNorm w ≠ 0 →
      cosine_similarity v w * (linalgNorm v * linalgNorm w) = dotp v w) := by
  constructor
  · rw [mul_eq_zero, linalgNorm_eq_zero_iff, linalgNorm_eq_zero_iff]
  · intro h
    rw [cosine_similarity, div_mul_cancel₀ _ h]

/-- Invariant of the `match_emotion` loop: the running best similarity
never decreases, dominates every label average seen so far, and the final
pair is either the untouched accumulator or some label together with its
own average. -/
theorem matchFold_spec (current : List ℝ)
    (data : List (String × List (List ℝ))) (acc : Option String × ℝ) :
    acc.2 ≤ (data.foldl (matchStep current) acc).2 ∧
    (∀ p ∈ data, avgSim current p ≤ (data.foldl (matchStep current) acc).2) ∧
    (data.foldl (matchStep current) acc = acc ∨
      ∃ p ∈ data, (data.foldl (matchStep current) acc).1 = some p.1 ∧
        (data.foldl (matchStep current) acc).2 = avgSim current p) := by
  induction data generalizing acc with
  | nil => simp
  | cons q ds ih =>
    simp only [List.foldl_cons]
    by_cases h : acc.2 < avgSim current q
    · have hstep : matchStep current acc q = (some q.1, avgSim current q) := by
        simp [matchStep, h]
      obtain ⟨h1, h2, h3⟩ := ih (some q.1, avgSim current q)
      rw [hstep]
      refine ⟨le_trans h.le h1, ?_, ?_⟩
      · intro p hp
        rcases List.mem_cons.mp hp with rfl | hp
        · exact h1
        · exact h2 p hp
      · rcases h3 with h3 | ⟨p, hp, hp1, hp2⟩
        · exact Or.inr ⟨q, by simp, by rw [h3], by rw [h3]⟩
        · exact Or.inr ⟨p, List.mem_cons.mpr (Or.inr hp), hp1, hp2⟩
    · have hstep : matchStep current acc q = acc := by
        simp [matchStep, h]
      obtain ⟨h1, h2, h3⟩ := ih acc
      rw [hstep]
      refine ⟨h1, ?_, ?_⟩
      · intro p hp
        rcases List.mem_cons.mp hp with rfl | hp
        · exact le_trans (not_lt.mp h) h1
        · exact h2 p hp
      · rcases h3 with h3 | ⟨p, hp, hp1, hp2⟩
        · exact Or.inl h3
        · exact Or.inr ⟨p, List.mem_cons.mpr (Or.inr hp), hp1, hp2⟩

/-- Claim C9, counterexample: with one calibrated label whose average
cosine similarity to the current embedding is `-1` (current embedding
`[1]`, one stored sample `[-1]`), `match_emotion` returns `(None, 0.0)` —
the `0.0` initialisation, not the best similarity found, which is `-1`. -/
theorem C9_match_counterexample :
    match_emotion [(1 : ℝ)] [("happy", [[(-1 : ℝ)]])] = (none, 0) ∧
    avgSim [(1 : ℝ)] ("happy", [[(-1 : ℝ)]]) = -1 ∧
    (0 : ℝ) ≠ -1 := by
  have h1 : linalgNorm [(1 : ℝ)] = 1 := by
    simp [linalgNorm, dotp, Real.sqrt_one]
  have h2 : linalgNorm [(-1 : ℝ)] = 1 := by
    have : dotp [(-1 : ℝ)] [(-1 : ℝ)] = 1 := by
      simp [dotp]
    rw [linalgNorm, this, Real.sqrt_one]
  have hcos : cosine_similarity [(1 : ℝ)] [(-1 : ℝ)] = -1 := by
    rw [cosine_similarity, h1, h2]
    simp [dotp]
  have havg : avgSim [(1 : ℝ)] ("happy", [[(-1 : ℝ)]]) = -1 := by
    simp [avgSim, meanR, hcos]
  refine ⟨?_, havg, by norm_num⟩
  rw [match_emotion]
  simp only [List.isEmpty_cons, List.foldl_cons, List.foldl_nil, matchStep, havg]
  norm_num

/-- Claim C9, amended: `match_emotion` computes per calibrated label the
average cosine similarity of the current embedding to that label's stored
samples; the similarity it returns is the running best, which is at least
`0.0` (the initialisation clamps negative averages), dominates every
label's average, and is either `0.0` or some label's average; a label is
returned (the best-scoring one, with its own average) exactly when that
running best exceeds `0.7`, and `None` is returned otherwise. -/
theorem C9_match_threshold (current : List ℝ)
    (data : List (String × List (List ℝ))) (hne : data ≠ []) :
    (0 ≤ (match_emotion current data).2) ∧
    (∀ p ∈ data, avgSim current p ≤ (match_emotion current data).2) ∧
    ((match_emotion current data).2 = 0 ∨
      ∃ p ∈ data, (match_emotion current data).2 = avgSim current p) ∧
    ((match_emotion current data).2 ≤ 7/10 → (match_emotion current data).1 = none) ∧
    (7/10 < (match_emotion current data).2 →
      ∃ p ∈ data, (match_emotion current data).1 = some p.1 ∧
        (match_emotion current data).2 = avgSim current p) := by
  obtain ⟨h1, h2, h3⟩ := matchFold_spec current data (none, 0)
  have hisE : data.isEmpty = false := by
    cases data with
    | nil => exact absurd rfl hne
    | cons a l => rfl
  rw [match_emotion, hisE]
  simp only [Bool.false_eq_true, if_false]
  by_cases hb : 7/10 < (data.foldl (matchStep current) (none, 0)).2
  · rw [if_pos hb]
    have hbest : ∃ p ∈ data,
        (data.foldl (matchStep current) (none, 0)).1 = some p.1 ∧
        (data.foldl (matchStep current) (none, 0)).2 = avgSim current p := by
      rcases h3 with h3 | h3
      · rw [h3] at hb
        norm_num at hb
      · exact h3
    obtain ⟨p, hp, hp1, hp2⟩ := hbest
    exact ⟨h1, h2, Or.inr ⟨p, hp, hp2⟩, fun hle => absurd hb (not_lt.mpr hle),
      fun _ => ⟨p, hp, hp1, hp2⟩⟩
  · rw [if_neg hb]
    refine ⟨h1, h2, ?_, fun _ => rfl, fun hgt => absurd hgt hb⟩
    rcases h3 with h3 | h3
    · exact Or.inl (by rw [h3])
    · obtain ⟨p, hp, _, hp2⟩ := h3
      exact Or.inr ⟨p, hp, hp2⟩

/-- Claim C9, witness: with one calibrated label, the returned similarity
of `match_emotion` is nonnegative and dominates that label's average. -/
theorem C9_match_threshold_witness :
    0 ≤ (match_emotion [(1 : ℝ)] [("happy", [[(1 : ℝ)]])]).2 :=
  (C9_match_threshold [(1 : ℝ)] [("happy", [[(1 : ℝ)]])] (by simp)).1

/-- Claim C8, witness: at `v1 = v2 = [1]` both norms are `1`, the divisor
is nonzero, and the similarity times the divisor is the dot product. -/
theorem C8_cosine_witness :
    cosine_similarity [(1 : ℝ)] [(1 : ℝ)] *
      (linalgNorm [(1 : ℝ)] * linalgNorm [(1 : ℝ)]) = dotp [(1 : ℝ)] [(1 : ℝ)] :=
  (C8_cosine_unguarded [(1 : ℝ)] [(1 : ℝ)]).2 (by
    have h1 : linalgNorm [(1 : ℝ)] = 1 := by
      simp [linalgNorm, dotp, Real.sqrt_one]
    rw [h1, mul_one]
    norm_num)

/-! ### Claim C1: the smoothing argmax -/

/-- The labels of the window samples, in window order. -/
def labelsOf (w : List Sample) : List String := w.map Prod.fst

/-- The confidences recorded for one label, in window order — what
`emotion_scores[lab]` holds once the whole window has been traversed. -/
def confsOf (w : List Sample) (lab : String) : List ℚ :=
  (w.filter (fun p => p.1 == lab)).map Prod.snd

/-- The mean confidence of a label across its occurrences in the window. -/
def meanConf (w : List Sample) (lab : String) : ℚ := meanQ (confsOf w lab)

/-- The distinct labels of a list in first-seen order — the key order of a
Python dict built by insertion. -/
def firstSeen : List String → List String
  | [] => []
  | x :: xs => x :: (firstSeen xs).filter (fun y => y != x)

/-- Index of the first occurrence of a label in a list. -/
def firstIdx : List String → String → Nat
  | [], _ => 0
  | a :: l, x => if a = x then 0 else firstIdx l x + 1

/-- The `emotion_scores` dict described directly: keys in first-seen
order, each key mapped to its confidences in window order. -/
def buildSpec (w : List Sample) : List (String × List ℚ) :=
  (firstSeen (labelsOf w)).map (fun lab => (lab, confsOf w lab))

/-- Membership in `firstSeen` is membership in the underlying list. -/
theorem mem_firstSeen {x : String} : ∀ {l : List String}, x ∈ firstSeen l ↔ x ∈ l
  | [] => Iff.rfl
  | a :: l => by
    have ih := @mem_firstSeen x l
    simp only [firstSeen, List.mem_cons, List.mem_filter, bne_iff_ne, ih]
    by_cases hxa : x = a
    · simp [hxa]
    · simp [hxa]

/-- Appending one element to the right either leaves the first-seen key
list unchanged (the label was already present) or appends the label. -/
theorem firstSeen_append (l : List String) (x : String) :
    firstSeen (l ++ [x]) = if x ∈ l then firstSeen l else firstSeen l ++ [x] := by
  induction l with
  | nil => simp [firstSeen]
  | cons a l ih =>
    show a :: (firstSeen (l ++ [x])).filter (fun y => y != a) = _
    rw [ih]
    by_cases hx : x ∈ l
    · rw [if_pos hx, if_pos (List.mem_cons.mpr (Or.inr hx))]
      rfl
    · rw [if_neg hx]
      by_cases hxa : x = a
      · rw [hxa] at hx ⊢
        rw [if_pos (List.mem_cons.mpr (Or.inl rfl)), List.filter_append]
        show a :: ((firstSeen l).filter (fun y => y != a) ++
          [a].filter (fun y => y != a)) = a :: (firstSeen l).filter (fun y => y != a)
        simp
      · rw [if_neg (by
          intro hmem
          rcases List.mem_cons.mp hmem with h | h
          · exact hxa h
          · exact hx h), List.filter_append]
        show a :: ((firstSeen l).filter (fun y => y != a) ++
            [x].filter (fun y => y != a)) =
          (a :: (firstSeen l).filter (fun y => y != a)) ++ [x]
        have : [x].filter (fun y => y != a) = [x] := by
          simp [bne_iff_ne, hxa]
        rw [this]
        rfl

/-- Appending a sample on the right appends its confidence to its own
label's list and leaves every other label's list unchanged. -/
theorem confsOf_append (w : List Sample) (e : String) (c : ℚ) (lab : String) :
    confsOf (w ++ [(e, c)]) lab =
      confsOf w lab ++ if lab = e then [c] else [] := by
  unfold confsOf
  rw [List.filter_append, List.map_append]
  congr 1
  by_cases h : lab = e
  · subst h
    simp
  · have : (e == lab) = false := by
      simp [beq_iff_eq]
      exact fun he => h he.symm
    simp [this, h]

/-- A label absent from the window has no recorded confidences. -/
theorem confsOf_eq_nil {w : List Sample} {e : String}
    (h : e ∉ labelsOf w) : confsOf w e = [] := by
  unfold confsOf
  have : w.filter (fun p => p.1 == e) = [] := by
    rw [List.filter_eq_nil_iff]
    intro p hp hpe
    exact h (List.mem_map.mpr ⟨p, hp, by simpa [beq_iff_eq] using hpe⟩)
  rw [this]
  rfl

/-- One right-append step: building the scores of `w ++ [(e, c)]`
directly agrees with updating the scores of `w` through `addToScores`. -/
theorem buildSpec_append (w : List Sample) (e : String) (c : ℚ) :
    buildSpec (w ++ [(e, c)]) = addToScores (buildSpec w) e c := by
  unfold buildSpec addToScores
  have hlab : labelsOf (w ++ [(e, c)]) = labelsOf w ++ [e] := by
    simp [labelsOf]
  rw [hlab, firstSeen_append]
  by_cases he : e ∈ labelsOf w
  · rw [if_pos he]
    have hany : ((firstSeen (labelsOf w)).map
        (fun lab => (lab, confsOf w lab))).any (fun p => p.1 == e) = true := by
      rw [List.any_eq_true]
      exact ⟨(e, confsOf w e),
        List.mem_map.mpr ⟨e, mem_firstSeen.mpr he, rfl⟩, by simp⟩
    rw [if_pos hany, List.map_map]
    apply List.map_congr_left
    intro lab _
    by_cases hlabe : lab = e
    · subst hlabe
      simp [confsOf_append]
    · have hbeq : (lab == e) = false := by simp [beq_iff_eq, hlabe]
      simp [Function.comp, confsOf_append, hlabe, hbeq]
  · rw [if_neg he]
    have hany : ((firstSeen (labelsOf w)).map
        (fun lab => (lab, confsOf w lab))).any (fun p => p.1 == e) = false := by
      rw [List.any_eq_false]
      rintro ⟨lab, confs⟩ hp
      obtain ⟨lab', hlab', heq⟩ := List.mem_map.mp hp
      cases heq
      simp only [beq_iff_eq]
      intro hle
      exact he (hle ▸ mem_firstSeen.mp hlab')
    rw [if_neg (by simp [hany]), List.map_append]
    congr 1
    · apply List.map_congr_left
      intro lab hlab'
      have hne : lab ≠ e := fun hle => he (hle ▸ mem_firstSeen.mp hlab')
      simp [confsOf_append, hne]
    · show [(e, confsOf (w ++ [(e, c)]) e)] = [(e, [c])]
      rw [confsOf_append, confsOf_eq_nil he]
      simp

/-- The dict built by the `detect_emotion_sync` loop is exactly the
first-seen grouping of the window. -/
theorem emotionScores_eq_buildSpec (w : List Sample) :
    emotionScores w = buildSpec w := by
  induction w using List.reverseRecOn with
  | nil => rfl
  | append_singleton w p ih =>
    obtain ⟨e, c⟩ := p
    show (w ++ [(e, c)]).foldl (fun s p => addToScores s p.1 p.2) [] = _
    rw [List.foldl_append, List.foldl_cons, List.foldl_nil]
    show addToScores (emotionScores w) e c = _
    rw [ih, buildSpec_append]

/-- `pyMaxBy` commutes with mapping a function over the candidates. -/
theorem pyMaxBy_map (f : β → ℚ) (g : α → β) (k : α) (l : List α) :
    pyMaxBy f (g k) (l.map g) = g (pyMaxBy (fun a => f (g a)) k l) := by
  induction l generalizing k with
  | nil => rfl
  | cons a l ih =>
    show pyMaxBy f (if f (g k) < f (g a) then g a else g k) (l.map g) = _
    by_cases h : f (g k) < f (g a)
    · rw [if_pos h, ih]
      show g (pyMaxBy _ a l) = g (pyMaxBy _ (if f (g k) < f (g a) then a else k) l)
      rw [if_pos h]
    · rw [if_neg h, ih]
      show g (pyMaxBy _ k l) = g (pyMaxBy _ (if f (g k) < f (g a) then a else k) l)
      rw [if_neg h]

/-- Python's first-maximum semantics of `pyMaxBy`: the candidate list
splits around the returned element, everything before it is strictly
smaller, everything after it is no larger, and it dominates the whole
list. -/
theorem pyMaxBy_split (f : α → ℚ) (x : α) (xs : List α) :
    ∃ l₁ l₂, x :: xs = l₁ ++ pyMaxBy f x xs :: l₂ ∧
      (∀ y ∈ l₁, f y < f (pyMaxBy f x xs)) ∧
      (∀ y ∈ l₂, f y ≤ f (pyMaxBy f x xs)) ∧
      (∀ y ∈ x :: xs, f y ≤ f (pyMaxBy f x xs)) := by
  induction xs generalizing x with
  | nil =>
    refine ⟨[], [], rfl, by simp, by simp, ?_⟩
    intro y hy
    rcases List.mem_cons.mp hy with rfl | hy
    · exact le_refl _
    · exact absurd hy (List.not_mem_nil y)
  | cons y ys ih =>
    by_cases h : f x < f y
    · have hstep : pyMaxBy f x (y :: ys) = pyMaxBy f y ys := by
        show pyMaxBy f (if f x < f y then y else x) ys = _
        rw [if_pos h]
      obtain ⟨l₁, l₂, hs, h₁, h₂, hall⟩ := ih y
      rw [hstep]
      refine ⟨x :: l₁, l₂, ?_, ?_, h₂, ?_⟩
      · show x :: (y :: ys) = x :: (l₁ ++ pyMaxBy f y ys :: l₂)
        rw [hs]
      · intro z hz
        rcases List.mem_cons.mp hz with rfl | hz
        · exact lt_of_lt_of_le h (hall y (List.mem_cons_self y ys))
        · exact h₁ z hz
      · intro z hz
        rcases List.mem_cons.mp hz with rfl | hz
        · exact le_of_lt (lt_of_lt_of_le h (hall y (List.mem_cons_self y ys)))
        · exact hall z hz
    · have hstep : pyMaxBy f x (y :: ys) = pyMaxBy f x ys := by
        show pyMaxBy f (if f x < f y then y else x) ys = _
        rw [if_neg h]
      obtain ⟨l₁, l₂, hs, h₁, h₂, hall⟩ := ih x
      rw [hstep]
      cases l₁ with
      | nil =>
        have hx : x = pyMaxBy f x ys ∧ ys = l₂ := by
          simpa using hs
        refine ⟨[], y :: ys, by simp [← hx.1], by simp, ?_, ?_⟩
        · intro z hz
          rcases List.mem_cons.mp hz with rfl | hz
          · exact le_trans (not_lt.mp h) (hall x (List.mem_cons_self x ys))
          · exact hall z (List.mem_cons.mpr (Or.inr (hx.2 ▸ hz)))
        · intro z hz
          rcases List.mem_cons.mp hz with hzx | hz
          · rw [hzx]
            exact hall x (List.mem_cons_self x ys)
          · rcases List.mem_cons.mp hz with hzy | hz
            · rw [hzy]
              exact le_trans (not_lt.mp h) (hall x (List.mem_cons_self x ys))
            · exact hall z (List.mem_cons.mpr (Or.inr hz))
      | cons a t =>
        have hx : x = a ∧ ys = t ++ pyMaxBy f x ys :: l₂ := by
          simpa using hs
        have hxm : f x < f (pyMaxBy f x ys) := hx.1 ▸ h₁ a (List.mem_cons_self a t)
        refine ⟨x :: y :: t, l₂, ?_, ?_, h₂, ?_⟩
        · show x :: (y :: ys) = x :: y :: (t ++ pyMaxBy f x ys :: l₂)
          rw [← hx.2]
        · intro z hz
          rcases List.mem_cons.mp hz with rfl | hz
          · exact hxm
          · rcases List.mem_cons.mp hz with rfl | hz
            · exact lt_of_le_of_lt (not_lt.mp h) hxm
            · exact h₁ z (hx.1 ▸ List.mem_cons.mpr (Or.inr hz))
        · intro z hz
          rcases List.mem_cons.mp hz with rfl | hz
          · exact le_of_lt hxm
          · rcases List.mem_cons.mp hz with rfl | hz
            · exact le_of_lt (lt_of_le_of_lt (not_lt.mp h) hxm)
            · exact hall z (List.mem_cons.mpr (Or.inr hz))

/-- `Pairwise` survives a `filter` when the relation transfer only needs
that both elements pass the filter. -/
theorem pairwise_filter_imp {α : Type} {R S : α → α → Prop} (p : α → Bool)
    (l : List α) (h : l.Pairwise R)
    (himp : ∀ a b, p a = true → p b = true → R a b → S a b) :
    (l.filter p).Pairwise S := by
  induction l with
  | nil => exact List.Pairwise.nil
  | cons a l ih =>
    rw [List.pairwise_cons] at h
    by_cases hp : p a = true
    · rw [List.filter_cons_of_pos hp, List.pairwise_cons]
      constructor
      · intro b hb
        rw [List.mem_filter] at hb
        exact himp a b hp hb.2 (h.1 b hb.1)
      · exact ih h.2
    · rw [List.filter_cons_of_neg (by simpa using hp)]
      exact ih h.2

/-- The first occurrence of a label other than the head sits one step
deeper than in the tail. -/
theorem firstIdx_cons_ne {x b : String} (xs : List String) (hbne : b ≠ x) :
    firstIdx (x :: xs) b = firstIdx xs b + 1 := by
  show (if x = b then 0 else firstIdx xs b + 1) = _
  rw [if_neg (fun hxb => hbne hxb.symm)]

/-- The first-seen key list is ordered by first occurrence: any key listed
earlier first occurs earlier in the underlying list. -/
theorem firstSeen_pairwise (l : List String) :
    (firstSeen l).Pairwise (fun a b => firstIdx l a < firstIdx l b) := by
  induction l with
  | nil => exact List.Pairwise.nil
  | cons x xs ih =>
    show (x :: (firstSeen xs).filter (fun y => y != x)).Pairwise _
    rw [List.pairwise_cons]
    constructor
    · intro b hb
      rw [List.mem_filter] at hb
      have hbne : b ≠ x := by simpa [bne_iff_ne] using hb.2
      show firstIdx (x :: xs) x < firstIdx (x :: xs) b
      rw [show firstIdx (x :: xs) x = 0 from by simp [firstIdx],
        firstIdx_cons_ne xs hbne]
      exact Nat.succ_pos _
    · refine pairwise_filter_imp (fun y => y != x) (firstSeen xs) ih ?_
      intro a b ha hb hab
      have hax : a ≠ x := by simpa [bne_iff_ne] using ha
      have hbx : b ≠ x := by simpa [bne_iff_ne] using hb
      rw [firstIdx_cons_ne xs hax, firstIdx_cons_ne xs hbx]
      exact Nat.succ_lt_succ hab

/-- Appending never empties the bounded window (capacity positive). -/
theorem pushWindow_ne_nil (cap : Nat) (hcap : 0 < cap)
    (w : List Sample) (s : Sample) : pushWindow cap w s ≠ [] := by
  unfold pushWindow
  by_cases h : cap < (w ++ [s]).length
  · rw [if_pos h]
    intro hnil
    have hlen := congrArg List.length hnil
    rw [List.length_drop, List.length_nil] at hlen
    omega
  · rw [if_neg h]
    simp

/-- Feeding at least one sample leaves the window nonempty. -/
theorem windowAfter_ne_nil (samples : List Sample) (h : samples ≠ []) :
    windowAfter samples ≠ [] := by
  have key : ∀ (rest w : List Sample), w ≠ [] →
      rest.foldl (pushWindow 8) w ≠ [] := by
    intro rest
    induction rest with
    | nil => exact fun w hw => hw
    | cons r rs ih =>
      intro w hw
      rw [List.foldl_cons]
      exact ih _ (pushWindow_ne_nil 8 (by norm_num) w r)
  cases samples with
  | nil => exact absurd rfl h
  | cons s ss =>
    rw [windowAfter, List.foldl_cons]
    exact key ss _ (pushWindow_ne_nil 8 (by norm_num) [] s)

/-- The smoothing postcondition for any nonempty window: the stable pair
comes from the label with the highest mean confidence, ties broken by
first occurrence, thresholded into `neutral`. -/
theorem stableFromWindow_spec (T : ℚ) (w : List Sample) (hw : w ≠ []) :
    ∃ lab,
      lab ∈ labelsOf w ∧
      (∀ l' ∈ labelsOf w, meanConf w l' ≤ meanConf w lab) ∧
      (∀ l' ∈ labelsOf w, meanConf w l' = meanConf w lab →
        firstIdx (labelsOf w) lab ≤ firstIdx (labelsOf w) l') ∧
      stableFromWindow T w =
        (if meanConf w lab < T then "neutral" else lab, meanConf w lab) := by
  obtain ⟨kh, kt, hkeys⟩ : ∃ kh kt, firstSeen (labelsOf w) = kh :: kt := by
    cases w with
    | nil => exact absurd rfl hw
    | cons p ps => exact ⟨p.1, _, rfl⟩
  have hES : emotionScores w =
      (kh, confsOf w kh) :: kt.map (fun lab => (lab, confsOf w lab)) := by
    rw [emotionScores_eq_buildSpec, buildSpec, hkeys, List.map_cons]
  have hbest : pyMaxBy (fun p => meanQ p.2) (kh, confsOf w kh)
      (kt.map (fun lab => (lab, confsOf w lab))) =
      (pyMaxBy (fun lab => meanConf w lab) kh kt,
       confsOf w (pyMaxBy (fun lab => meanConf w lab) kh kt)) := by
    exact pyMaxBy_map (fun p => meanQ p.2) (fun lab => (lab, confsOf w lab)) kh kt
  have hstable : stableFromWindow T w =
      (if meanConf w (pyMaxBy (fun lab => meanConf w lab) kh kt) < T then
        "neutral" else pyMaxBy (fun lab => meanConf w lab) kh kt,
       meanConf w (pyMaxBy (fun lab => meanConf w lab) kh kt)) := by
    rw [stableFromWindow, hES]
    show (if meanQ (pyMaxBy (fun p => meanQ p.2) (kh, confsOf w kh)
        (kt.map (fun lab => (lab, confsOf w lab)))).2 < T then
        ("neutral", meanQ (pyMaxBy (fun p => meanQ p.2) (kh, confsOf w kh)
          (kt.map (fun lab => (lab, confsOf w lab)))).2)
      else ((pyMaxBy (fun p => meanQ p.2) (kh, confsOf w kh)
          (kt.map (fun lab => (lab, confsOf w lab)))).1,
        meanQ (pyMaxBy (fun p => meanQ p.2) (kh, confsOf w kh)
          (kt.map (fun lab => (lab, confsOf w lab)))).2)) = _
    rw [hbest]
    show (if meanConf w (pyMaxBy (fun lab => meanConf w lab) kh kt) < T then
        ("neutral", meanConf w (pyMaxBy (fun lab => meanConf w lab) kh kt))
      else (pyMaxBy (fun lab => meanConf w lab) kh kt,
        meanConf w (pyMaxBy (fun lab => meanConf w lab) kh kt))) = _
    by_cases hT : meanConf w (pyMaxBy (fun lab => meanConf w lab) kh kt) < T
    · rw [if_pos hT, if_pos hT]
    · rw [if_neg hT, if_neg hT]
  obtain ⟨k₁, k₂, hsplit, hlt, _, hall⟩ :=
    pyMaxBy_split (fun lab => meanConf w lab) kh kt
  have hmemkeys : ∀ l', l' ∈ labelsOf w ↔ l' ∈ kh :: kt := by
    intro l'
    rw [← hkeys, mem_firstSeen]
  refine ⟨pyMaxBy (fun lab => meanConf w lab) kh kt, ?_, ?_, ?_, hstable⟩
  · refine (hmemkeys _).mpr ?_
    rw [hsplit]
    exact List.mem_append.mpr (Or.inr (List.mem_cons_self _ _))
  · intro l' hl'
    exact hall l' ((hmemkeys l').mp hl')
  · intro l' hl' heq
    have hmem : l' ∈ k₁ ++ pyMaxBy (fun lab => meanConf w lab) kh kt :: k₂ := by
      rw [← hsplit]
      exact (hmemkeys l').mp hl'
    rcases List.mem_append.mp hmem with h1 | h2
    · exact absurd heq (ne_of_lt (hlt l' h1))
    · rcases List.mem_cons.mp h2 with hzx | h3
      · rw [hzx]
      · have hpw := firstSeen_pairwise (labelsOf w)
        rw [hkeys, hsplit] at hpw
        have hrel := (List.pairwise_cons.mp (List.pairwise_append.mp hpw).2.1).1
        exact (hrel l' h3).le

/-- Claim C1: for every sequence of samples appended to the bounded
smoothing window, the stable pair computed by `detect_emotion_sync` comes
from a label of the current window whose mean confidence is maximal (ties
broken by first-seen order), its mean confidence is returned, and the
emitted label is `neutral` instead whenever that mean is below the
threshold `T`. -/
theorem C1_smoothing (T : ℚ) (samples : List Sample) (h : samples ≠ []) :
    ∃ lab,
      lab ∈ labelsOf (windowAfter samples) ∧
      (∀ l' ∈ labelsOf (windowAfter samples),
        meanConf (windowAfter samples) l' ≤ meanConf (windowAfter samples) lab) ∧
      (∀ l' ∈ labelsOf (windowAfter samples),
        meanConf (windowAfter samples) l' = meanConf (windowAfter samples) lab →
        firstIdx (labelsOf (windowAfter samples)) lab ≤
          firstIdx (labelsOf (windowAfter samples)) l') ∧
      stableFromWindow T (windowAfter samples) =
        (if meanConf (windowAfter samples) lab < T then "neutral" else lab,
         meanConf (windowAfter samples) lab) :=
  stableFromWindow_spec T (windowAfter samples) (windowAfter_ne_nil samples h)

/-- Claim C1, witness: for the one-sample sequence `[(happy, 0.9)]` the
smoothing postcondition holds of the resulting window. -/
theorem C1_smoothing_witness :
    ∃ lab,
      lab ∈ labelsOf (windowAfter [("happy", 9/10)]) ∧
      (∀ l' ∈ labelsOf (windowAfter [("happy", 9/10)]),
        meanConf (windowAfter [("happy", 9/10)]) l' ≤
          meanConf (windowAfter [("happy", 9/10)]) lab) ∧
      (∀ l' ∈ labelsOf (windowAfter [("happy", 9/10)]),
        meanConf (windowAfter [("happy", 9/10)]) l' =
          meanConf (windowAfter [("happy", 9/10)]) lab →
        firstIdx (labelsOf (windowAfter [("happy", 9/10)])) lab ≤
          firstIdx (labelsOf (windowAfter [("happy", 9/10)])) l') ∧
      stableFromWindow (7/10) (windowAfter [("happy", 9/10)]) =
        (if meanConf (windowAfter [("happy", 9/10)]) lab < 7/10 then
          "neutral" else lab,
         meanConf (windowAfter [("happy", 9/10)]) lab) :=
  C1_smoothing (7/10) [("happy", 9/10)] (by simp)

end Roomii
